import Mathlib

/-!
Verification of the expense-tracker core pipeline (`src/expenses/src/app/page.tsx`):
the persistence bridge (load/save of the durable slot), validation and
normalization (`handleSubmit`), the derived view engine (`filteredExpenses`,
`totals`) and deletion (`handleDelete`).

Modelling conventions for the shallow embedding:
* JavaScript numbers are modelled exactly as rationals.  Where a claim is about
  binary floating-point precision (amount rounding), the IEEE-754 binary64
  rounding of an exact rational is modelled explicitly (`nearestDouble`);
  elsewhere (sums, divisions) exact rational arithmetic stands in for double
  arithmetic, which no checked claim distinguishes.
* The durable slot holds a JSON document (`Json`); a raw string that fails
  `JSON.parse`, and the empty string, are represented by `Slot.malformed`.
  `JSON.stringify` followed by `JSON.parse` is the identity on `Json`.
* `localeCompare` on the ISO date/timestamp strings used by the program is
  modelled by the lexicographic order on `String`.
* `Array.prototype.sort` (stable, with a consistent comparator) is modelled by
  the stable insertion sort `stableSortBy`.
-/

set_option maxHeartbeats 1600000

attribute [local semireducible] Rat.mul Rat.add Rat.sub Rat.inv

/-! ### String primitives

List-based models of the JS string methods the source uses (`trim`,
`toLowerCase`, `slice`, `startsWith`), evaluating by structural recursion on
the character list.  `toLowerCase` is modelled by the per-character `Char`
lowering, which agrees with JS on the ASCII data the program handles. -/

/-- JS `String.prototype.trim`: strip whitespace from both ends. -/
def jsTrim (s : String) : String :=
  ⟨(((s.data.dropWhile Char.isWhitespace).reverse.dropWhile Char.isWhitespace).reverse)⟩

/-- JS `String.prototype.toLowerCase` (per-character lowering). -/
def jsToLowerStr (s : String) : String :=
  ⟨s.data.map Char.toLower⟩

/-- JS `String.prototype.slice(0, n)` on the strings at hand. -/
def strTake (s : String) (n : ℕ) : String :=
  ⟨s.data.take n⟩

/-- JS `String.prototype.slice(n)` on the strings at hand. -/
def strDrop (s : String) (n : ℕ) : String :=
  ⟨s.data.drop n⟩

/-- JS `String.prototype.startsWith`. -/
def strStartsWith (s p : String) : Bool :=
  decide (p.data <+: s.data)

/-- Lexicographic `≤` on character lists by code point. -/
def charListLe : List Char → List Char → Bool
  | [], _ => true
  | _ :: _, [] => false
  | a :: as, b :: bs => if a = b then charListLe as bs else decide (a.toNat < b.toNat)

/-- `a.localeCompare(b) ≤ 0`, modelled by the lexicographic code-point order,
with which the default collation agrees on the ISO date and timestamp strings
the program compares. -/
def strLe (a b : String) : Bool :=
  charListLe a.data b.data

/-- JSON values as produced by `JSON.parse` (numbers idealized as rationals). -/
inductive Json where
  | null : Json
  | bool (b : Bool) : Json
  | num (q : ℚ) : Json
  | str (s : String) : Json
  | arr (items : List Json) : Json
  | obj (fields : List (String × Json)) : Json

/-- The `Expense` record type of the source. -/
structure Expense where
  id : String
  description : String
  category : String
  amount : ℚ
  date : String
  note : Option String
  createdAt : String
deriving DecidableEq

/-- The raw `DraftExpense` form state of the source (all fields are text). -/
structure DraftExpense where
  description : String
  category : String
  amount : String
  date : String
  note : String
deriving DecidableEq

/-- The three validation failures of the source's `handleSubmit`, named as in
the specification's error taxonomy. -/
inductive SubmitError where
  | EmptyDescription : SubmitError
  | InvalidAmount : SubmitError
  | InvalidDate : SubmitError
deriving DecidableEq

/-! ### Decimal parsing (models of the JS `Number` and `parseFloat` builtins) -/

/-- Accumulating decimal digit evaluation. -/
def digitsToNat (acc : ℕ) : List Char → ℕ
  | [] => acc
  | c :: cs => digitsToNat (10 * acc + (c.toNat - 48)) cs

/-- Split a character list into its leading run of decimal digits and the rest. -/
def takeDigits : List Char → List Char × List Char
  | [] => ([], [])
  | c :: cs =>
    if c.isDigit then
      let p := takeDigits cs
      (c :: p.1, p.2)
    else ([], c :: cs)

/-- Parse an unsigned decimal literal (`digits`, `digits.digits`, `.digits`,
`digits.`) as an exact rational, returning the unconsumed remainder. -/
def parseUnsignedDecimal (cs : List Char) : Option (ℚ × List Char) :=
  let p := takeDigits cs
  match p.2 with
  | '.' :: rest2 =>
    let f := takeDigits rest2
    if p.1.isEmpty && f.1.isEmpty then none
    else
      some (((digitsToNat 0 p.1 : ℕ) : ℚ) +
        ((digitsToNat 0 f.1 : ℕ) : ℚ) / ((10 ^ f.1.length : ℕ) : ℚ), f.2)
  | _ => if p.1.isEmpty then none else some (((digitsToNat 0 p.1 : ℕ) : ℚ), p.2)

/-- Parse an optionally signed decimal literal. -/
def parseSignedDecimal (cs : List Char) : Option (ℚ × List Char) :=
  match cs with
  | '-' :: rest => (parseUnsignedDecimal rest).map (fun p => (-p.1, p.2))
  | '+' :: rest => parseUnsignedDecimal rest
  | _ => parseUnsignedDecimal cs

/-- Modelled JS `Number(string)` on decimal strings: the string is trimmed, the
empty string yields `0`, otherwise the whole string must be a signed decimal
literal.  `none` models `NaN`.  (Exponent, hexadecimal and `Infinity` syntaxes
are outside the model; the month strings this is applied to never use them.) -/
def jsNumberExact (s : String) : Option ℚ :=
  let t := jsTrim s
  if t = "" then some 0
  else
    match parseSignedDecimal t.data with
    | some (q, []) => some q
    | _ => none

/-- Modelled JS `parseFloat(string)` on decimal strings: leading whitespace is
skipped, the longest signed decimal prefix is parsed, trailing characters are
ignored.  `none` models `NaN`.  The result is the exact decimal value; the
binary64 rounding that `parseFloat` performs is applied by `jsParseFloat`. -/
def jsParseFloatExact (s : String) : Option ℚ :=
  (parseSignedDecimal (s.data.dropWhile Char.isWhitespace)).map Prod.fst

/-! ### Binary64 rounding (exact model over ℚ) -/

/-- `2 ^ e` as a rational, for an integer exponent. -/
def pow2 (e : ℤ) : ℚ :=
  if 0 ≤ e then ((2 ^ e.toNat : ℕ) : ℚ) else (((2 ^ (-e).toNat : ℕ) : ℚ))⁻¹

/-- Fuel-driven base-2 logarithm (structural recursion, so that closed terms
reduce definitionally). -/
def log2Fuel : ℕ → ℕ → ℕ
  | 0, _ => 0
  | fuel + 1, n => if n < 2 then 0 else log2Fuel fuel (n / 2) + 1

/-- `⌊log₂ n⌋` for `n ≥ 1` (and `0` for `n = 0`). -/
def natLog2 (n : ℕ) : ℕ :=
  log2Fuel n n

/-- For `q > 0`, the exponent `e` with `2 ^ e ≤ q < 2 ^ (e + 1)`. -/
def ratExp2 (q : ℚ) : ℤ :=
  let e0 : ℤ := (natLog2 q.num.natAbs : ℤ) - (natLog2 q.den : ℤ)
  if q < pow2 e0 then e0 - 1 else e0

/-- Round a rational to the nearest integer, ties to even. -/
def roundNearestEven (q : ℚ) : ℤ :=
  let f := ⌊q⌋
  if q - (f : ℚ) < 1/2 then f
  else if (1 : ℚ)/2 < q - (f : ℚ) then f + 1
  else if f % 2 = 0 then f else f + 1

/-- Binary64 rounding of a positive rational: round to 53 significant bits. -/
def nearestDoublePos (q : ℚ) : ℚ :=
  let s := ratExp2 q - 52
  ((roundNearestEven (q / pow2 s) : ℤ) : ℚ) * pow2 s

/-- Modelled IEEE-754 binary64 rounding of an exact rational (round to nearest,
ties to even).  The model covers the normal range; overflow and subnormal
underflow, which no amount in the checked claims reaches, are outside it. -/
def nearestDouble (q : ℚ) : ℚ :=
  if q < 0 then -nearestDoublePos (-q) else if q = 0 then 0 else nearestDoublePos q

/-- `Number.parseFloat` as used by `handleSubmit`: exact decimal parse followed
by binary64 rounding; `none` models `NaN`. -/
def jsParseFloat (s : String) : Option ℚ :=
  (jsParseFloatExact s).map nearestDouble

/-- Modelled `x.toFixed(2)` followed by `Number(...)`, before the final
re-rounding to a double: the multiple of `1/100` nearest to `x`, exact ties
taking the value of larger magnitude away from zero for the absolute value
(the ECMAScript `toFixed` picks the larger candidate numerator and applies the
sign afterwards). -/
def jsToFixed2 (x : ℚ) : ℚ :=
  if x < 0 then -(((⌊100 * (-x) + 1/2⌋ : ℤ) : ℚ) / 100)
  else ((⌊100 * x + 1/2⌋ : ℤ) : ℚ) / 100

/-- Modelled from the spec: "round-half-up at 2 decimals" applied to an exact
(decimal) amount, for comparison with the source behaviour. -/
def specRoundHalfUp2 (q : ℚ) : ℚ :=
  ((⌊100 * q + 1/2⌋ : ℤ) : ℚ) / 100

/-! ### Calendar arithmetic (model of the JS `Date` builtin uses) -/

/-- Gregorian leap-year rule. -/
def isLeapYear (y : ℤ) : Bool :=
  decide (y % 4 = 0 ∧ (y % 100 ≠ 0 ∨ y % 400 = 0))

/-- Number of days of month `m` (1-based) of year `y` in the proleptic
Gregorian calendar. -/
def daysInGregorianMonth (y : ℤ) (m : ℤ) : ℤ :=
  if m = 1 ∨ m = 3 ∨ m = 5 ∨ m = 7 ∨ m = 8 ∨ m = 10 ∨ m = 12 then 31
  else if m = 4 ∨ m = 6 ∨ m = 9 ∨ m = 11 then 30
  else if isLeapYear y then 29 else 28

/-- Truncation toward zero (the ECMAScript `ToInteger` of a finite number). -/
def ratTrunc (q : ℚ) : ℤ :=
  if q < 0 then -⌊-q⌋ else ⌊q⌋

/-- Modelled `new Date(y, m, 0).getDate()`: the day-of-month of the day before
the first day of the 0-based month `m` of year `y`, after the `Date`
constructor's normalization (years `0..99` get `1900` added, out-of-range
months roll over into adjacent years).  The `Date` time-range overflow, out of
reach for the month strings of a month input, is outside the model. -/
def jsDateZeroGetDate (y m : ℚ) : ℤ :=
  let yi := ratTrunc y
  let mi := ratTrunc m
  let y2 := if 0 ≤ yi ∧ yi ≤ 99 then yi + 1900 else yi
  let ym := y2 + mi.fdiv 12
  let mn := mi.emod 12
  if mn = 0 then 31 else daysInGregorianMonth ym mn

/-- The `daysInMonth` computation of `totals`:
`month ? new Date(Number(month.slice(0, 4)), Number(month.slice(5)), 0).getDate() : 30`.
`none` models `NaN` (a falsy day count). -/
def daysInMonthComputed (month : String) : Option ℤ :=
  if month = "" then some 30
  else
    match jsNumberExact (strTake month 4), jsNumberExact (strDrop month 5) with
    | some yq, some mq => some (jsDateZeroGetDate yq mq)
    | _, _ => none

/-- Modelled `Date.parse` restricted to the `YYYY-MM-DD` values a date input
produces: true exactly for a four-digit year, a month `01..12` and a day that
exists in that month.  (The engine-specific fallback parsing of non-ISO strings
is outside the model; the date field only ever holds this format or `""`.) -/
def jsDateParses (s : String) : Bool :=
  match s.data with
  | [y1, y2, y3, y4, '-', m1, m2, '-', d1, d2] =>
    if [y1, y2, y3, y4, m1, m2, d1, d2].all Char.isDigit then
      let y := digitsToNat 0 [y1, y2, y3, y4]
      let m := digitsToNat 0 [m1, m2]
      let d := digitsToNat 0 [d1, d2]
      decide (1 ≤ m ∧ m ≤ 12 ∧ 1 ≤ d ∧ (d : ℤ) ≤ daysInGregorianMonth (y : ℤ) (m : ℤ))
    else false
  | _ => false

/-! ### Stable sorting (model of `Array.prototype.sort`) -/

/-- Insert `x` into `l` after every element `y` with `le y x`; inserting each
element of a list in turn realizes a stable sort for the comparator `le`. -/
def insertLe (le : α → α → Bool) (x : α) : List α → List α
  | [] => [x]
  | y :: ys => if le y x then y :: insertLe le x ys else x :: y :: ys

/-- Stable insertion sort: the unique output of the ECMAScript stable `sort`
for a consistent comparator (elements ordered by `le`, ties in input order). -/
def stableSortBy (le : α → α → Bool) (l : List α) : List α :=
  l.foldl (fun acc y => insertLe le y acc) []

/-! ### The derived view engine -/

/-- Case-insensitive-by-lowercasing substring test: `hay.includes(needle)` on
already lowercased strings. -/
def jsIncludes (hay needle : String) : Bool :=
  decide (needle.data <:+: hay.data)

/-- Month filter stage of `filteredExpenses`. -/
def monthStage (l : List Expense) (month : String) : List Expense :=
  l.filter (fun e => strStartsWith e.date month)

/-- Category filter stage of `filteredExpenses`. -/
def categoryStage (l : List Expense) (categoryFilter : String) : List Expense :=
  if categoryFilter = "all" then l
  else l.filter (fun e => e.category = categoryFilter)

/-- The search predicate of `filteredExpenses`: description or note contains
the trimmed, lowercased term; an absent note never matches. -/
def matchesSearch (searchTerm : String) (e : Expense) : Bool :=
  let needle := jsToLowerStr (jsTrim searchTerm)
  jsIncludes (jsToLowerStr e.description) needle ||
    (match e.note with
     | some n => jsIncludes (jsToLowerStr n) needle
     | none => false)

/-- Search filter stage of `filteredExpenses`. -/
def searchStage (l : List Expense) (searchTerm : String) : List Expense :=
  if jsTrim searchTerm = "" then l else l.filter (matchesSearch searchTerm)

/-- The timeline comparator:
`a.date === b.date ? b.createdAt.localeCompare(a.createdAt) : b.date.localeCompare(a.date)`
as a `≤`-test (`true` when the comparator is `≤ 0`, i.e. `a` may stay before `b`). -/
def timelineLe (a b : Expense) : Bool :=
  if a.date = b.date then strLe b.createdAt a.createdAt
  else strLe b.date a.date

/-- The full `filteredExpenses` pipeline: month, category and search filters,
then the stable sort by date descending with `createdAt` descending ties. -/
def filteredExpenses (l : List Expense) (month categoryFilter searchTerm : String) :
    List Expense :=
  stableSortBy timelineLe (searchStage (categoryStage (monthStage l month) categoryFilter) searchTerm)

/-- `total` of `totals`: reduce with `+` from `0`. -/
def totalsTotal (l : List Expense) : ℚ :=
  l.foldl (fun s e => s + e.amount) 0

/-- `dailyAverage` of `totals`: `daysInMonth ? total / daysInMonth : total`. -/
def dailyAverageCalc (l : List Expense) (month : String) : ℚ :=
  match daysInMonthComputed month with
  | some d => if d = 0 then totalsTotal l else totalsTotal l / (d : ℚ)
  | none => totalsTotal l

/-- `acc[k] = v` on a JS object modelled as an association list with unique
keys: an existing key is updated in place, a new key is appended. -/
def recordSet (rec : List (String × ℚ)) (k : String) (v : ℚ) : List (String × ℚ) :=
  match rec with
  | [] => [(k, v)]
  | (k0, v0) :: rest => if k0 = k then (k0, v) :: rest else (k0, v0) :: recordSet rest k v

/-- `acc[k]` on the modelled JS object. -/
def recordGet (rec : List (String × ℚ)) (k : String) : Option ℚ :=
  match rec with
  | [] => none
  | (k0, v0) :: rest => if k0 = k then some v0 else recordGet rest k

/-- The `byCategory` aggregation of `totals`:
`acc[category] = (acc[category] ?? 0) + amount` over the filtered list. -/
def byCategoryAgg (l : List Expense) : List (String × ℚ) :=
  l.foldl (fun acc e => recordSet acc e.category ((recordGet acc e.category).getD 0 + e.amount)) []

/-- Whether a string is a JS array-index property key: a canonical decimal
numeral below `2 ^ 32 - 1` (no sign, no leading zero except `"0"` itself). -/
def isArrayIndexKey (s : String) : Bool :=
  (!s.data.isEmpty) && s.data.all Char.isDigit &&
    (s = "0" || s.data.head? != some '0') && decide (digitsToNat 0 s.data < 4294967295)

/-- Ascending numeric order on array-index keys. -/
def keyNumLe (a b : String × ℚ) : Bool :=
  decide (digitsToNat 0 a.1.data ≤ digitsToNat 0 b.1.data)

/-- `Object.entries` on the modelled JS object: array-index keys first in
ascending numeric order, then the remaining keys in insertion order. -/
def jsEntries (rec : List (String × ℚ)) : List (String × ℚ) :=
  stableSortBy keyNumLe (rec.filter (fun p => isArrayIndexKey p.1)) ++
    rec.filter (fun p => !isArrayIndexKey p.1)

/-- Descending order on aggregated amounts: the comparator `b[1] - a[1]` as a
`≤`-test. -/
def amountDescLe (a b : String × ℚ) : Bool :=
  decide (b.2 ≤ a.2)

/-- `topCategory` of `totals`: the head of the entries of `byCategory`, stably
sorted by amount descending. -/
def totalsTopCategory (l : List Expense) : Option (String × ℚ) :=
  (stableSortBy amountDescLe (jsEntries (byCategoryAgg l))).head?

/-- Modelled from the spec: `topCategory` with ties broken by the insertion
order of the aggregation (the spec's stated tie rule), for comparison with the
source behaviour, which enumerates array-index category names first. -/
def specTopCategoryByInsertion (l : List Expense) : Option (String × ℚ) :=
  (stableSortBy amountDescLe (byCategoryAgg l)).head?

/-- One step of the first-maximum scan: a later entry replaces the candidate
only when its amount is strictly larger. -/
def fmStep (h : Option (String × ℚ)) (p : String × ℚ) : Option (String × ℚ) :=
  match h with
  | none => some p
  | some m => if m.2 < p.2 then some p else some m

/-- The first entry of `entries` attaining the maximal amount (strictly later
entries replace the candidate only when strictly larger). -/
def firstMaxEntry (entries : List (String × ℚ)) : Option (String × ℚ) :=
  entries.foldl fmStep none

/-! ### Validation, append and delete -/

/-- The source's `handleSubmit` on the record store: validation in order
(description, amount, date), first failure wins and leaves the store
unchanged; on success the normalized record is prepended.  `freshId` and `now`
stand for `crypto.randomUUID()` and `new Date().toISOString()`. -/
def handleSubmit (draft : DraftExpense) (freshId now : String) (store : List Expense) :
    List Expense × Option SubmitError :=
  let trimmedDescription := jsTrim draft.description
  if trimmedDescription = "" then (store, some SubmitError.EmptyDescription)
  else
    match jsParseFloat draft.amount with
    | none => (store, some SubmitError.InvalidAmount)
    | some amountValue =>
      if amountValue ≤ 0 then (store, some SubmitError.InvalidAmount)
      else if draft.date = "" ∨ jsDateParses draft.date = false then
        (store, some SubmitError.InvalidDate)
      else
        ({ id := freshId
           description := trimmedDescription
           category := if draft.category = "" then "Other" else draft.category
           amount := nearestDouble (jsToFixed2 amountValue)
           date := draft.date
           note := if jsTrim draft.note = "" then none else some (jsTrim draft.note)
           createdAt := now } :: store, none)

/-- The source's `handleDelete`: keep the records whose id differs. -/
def handleDelete (id : String) (store : List Expense) : List Expense :=
  store.filter (fun e => e.id ≠ id)

/-! ### Persistence bridge -/

/-- The durable slot: absent, a raw value `JSON.parse` rejects (including the
falsy empty string), or a parsed JSON document. -/
inductive Slot where
  | absent : Slot
  | malformed : Slot
  | value (j : Json) : Slot

/-- Object field access `fields[k]` with JSON duplicate keys resolved
last-wins, as `JSON.parse` does. -/
def jsonGetField : List (String × Json) → String → Option Json
  | [], _ => none
  | (k0, v) :: rest, k =>
    match jsonGetField rest k with
    | some v2 => some v2
    | none => if k0 = k then some v else none

/-- Extract a JSON string (`typeof x === "string"`). -/
def jsonStr? : Option Json → Option String
  | some (Json.str s) => some s
  | _ => none

/-- Extract a JSON number (`typeof x === "number"`). -/
def jsonNum? : Option Json → Option ℚ
  | some (Json.num q) => some q
  | _ => none

def jsonIsNull : Json → Bool
  | Json.null => true
  | _ => false

def jsonIsArr : Json → Bool
  | Json.arr _ => true
  | _ => false

/-- The shape check of the load effect: id, description, category and date
must be strings and amount a number; `note` and `createdAt` are not checked.
A kept entry's string note is carried over and any other note is modelled as
absent; a missing or non-string `createdAt` is modelled as the empty string
(the JS code carries the raw values through, which no checked claim
observes). -/
def decodeExpense : Json → Option Expense
  | Json.obj fields =>
    match jsonStr? (jsonGetField fields "id"), jsonStr? (jsonGetField fields "description"),
        jsonStr? (jsonGetField fields "category"), jsonNum? (jsonGetField fields "amount"),
        jsonStr? (jsonGetField fields "date") with
    | some i, some d, some c, some a, some dt =>
      some { id := i, description := d, category := c, amount := a, date := dt,
             note := jsonStr? (jsonGetField fields "note"),
             createdAt := (jsonStr? (jsonGetField fields "createdAt")).getD "" }
    | _, _, _, _, _ => none
  | _ => none

/-- The comparator `(a, b) => b.date.localeCompare(a.date)` of the load effect
as a `≤`-test. -/
def dateDescLe (a b : Expense) : Bool :=
  strLe b.date a.date

/-- The load effect: an absent or unparseable slot yields the empty store; a
non-array document is ignored; on an array, the shape-checking `filter` throws
a `TypeError` on the first `null` entry (property access on `null`), the catch
swallows it and the store stays empty; otherwise the well-shaped entries are
kept and sorted by date descending. -/
def loadSlot : Slot → List Expense
  | Slot.absent => []
  | Slot.malformed => []
  | Slot.value (Json.arr items) =>
    if items.any jsonIsNull then []
    else stableSortBy dateDescLe (items.filterMap decodeExpense)
  | Slot.value _ => []

/-- Serialization of one record: `JSON.stringify` omits the absent note. -/
def encodeExpense (e : Expense) : Json :=
  Json.obj
    ([("id", Json.str e.id), ("description", Json.str e.description),
      ("category", Json.str e.category), ("amount", Json.num e.amount),
      ("date", Json.str e.date)] ++
      (match e.note with
       | some n => [("note", Json.str n)]
       | none => []) ++
      [("createdAt", Json.str e.createdAt)])

/-- The persist effect: `JSON.stringify(expenses)` written to the slot. -/
def saveExpenses (l : List Expense) : Json :=
  Json.arr (l.map encodeExpense)


/-! ### The timeline order as a proposition, and concrete data -/

/-- The timeline order the spec states: strictly later date first; equal dates
ordered by `createdAt` descending. -/
def timelineOrder (a b : Expense) : Prop :=
  (b.date = a.date ∧ strLe b.createdAt a.createdAt = true) ∨
  (b.date ≠ a.date ∧ strLe b.date a.date = true)

/-- A draft with the given amount text and otherwise valid fields. -/
def demoDraft (a : String) : DraftExpense :=
  { description := "x", category := "", amount := a, date := "2024-01-02", note := "" }

/-- A one-record store used to observe that failed submissions leave it alone. -/
def demoStore : List Expense :=
  [{ id := "s", description := "seed", category := "Other", amount := 1,
     date := "2024-01-01", note := none, createdAt := "T0" }]

/-- The exact binary64 value of `parseFloat("12.345")`. -/
def q12val : ℚ := 6949617174986097 / 562949953421312

/-- The record stored for the draft amount `"12.345"`; its amount is the
binary64 value of `12.35`. -/
def c12Stored : Expense :=
  { id := "i", description := "x", category := "Other",
    amount := 6952431924753203 / 562949953421312, date := "2024-01-02", note := none,
    createdAt := "t" }

/-- The record stored for the draft amount `"1.005"`. -/
def c5Stored : Expense :=
  { id := "i", description := "x", category := "Other", amount := 1,
    date := "2024-01-02", note := none, createdAt := "t" }

/-- The two-record March 2024 example. -/
def demoMarch : List Expense :=
  [{ id := "a", description := "x", category := "Food", amount := 10,
     date := "2024-03-01", note := none, createdAt := "T1" },
   { id := "b", description := "y", category := "Tech", amount := 20,
     date := "2024-03-02", note := none, createdAt := "T2" }]

/-- A well-shaped stored entry. -/
def goodObjA : Json :=
  Json.obj [("id", Json.str "a"), ("description", Json.str "lunch"),
    ("category", Json.str "Food"), ("amount", Json.num 5),
    ("date", Json.str "2024-03-01"), ("createdAt", Json.str "T1")]

/-- Another well-shaped stored entry. -/
def goodObjB : Json :=
  Json.obj [("id", Json.str "b"), ("description", Json.str "taxi"),
    ("category", Json.str "Transport"), ("amount", Json.num 9),
    ("date", Json.str "2024-03-02"), ("createdAt", Json.str "T2")]

/-- The record `goodObjA` decodes to. -/
def expA : Expense :=
  { id := "a", description := "lunch", category := "Food", amount := 5,
    date := "2024-03-01", note := none, createdAt := "T1" }

/-- The record `goodObjB` decodes to. -/
def expB : Expense :=
  { id := "b", description := "taxi", category := "Transport", amount := 9,
    date := "2024-03-02", note := none, createdAt := "T2" }

/-- A stored array mixing well-shaped records with malformed entries,
including the documented `{id: 1, amount: "5"}` example. -/
def mixedItems : List Json :=
  [goodObjA, Json.num 5, goodObjB, Json.str "x", Json.bool true,
   Json.obj [("id", Json.num 1), ("amount", Json.str "5")], Json.arr []]

/-- Two equal-amount categories whose names are array-index strings, inserted
in the order `"2"`, `"1"`. -/
def tieRecords : List Expense :=
  [{ id := "a", description := "x", category := "2", amount := 5,
     date := "2024-01-01", note := none, createdAt := "T1" },
   { id := "b", description := "y", category := "1", amount := 5,
     date := "2024-01-01", note := none, createdAt := "T2" }]

/-- A record whose description matches the search term `" CAFE "`. -/
def demoSearch : Expense :=
  { id := "s1", description := "Cafe Latte", category := "Food", amount := 4,
    date := "2024-01-01", note := none, createdAt := "T" }

/-- A record used to exercise deletion. -/
def demoC9 : Expense :=
  { id := "w9", description := "x", category := "Other", amount := 3,
    date := "2024-01-01", note := none, createdAt := "T" }

/-! ## Lemmas about the stable sort -/

theorem insertLe_perm (le : α → α → Bool) (x : α) (l : List α) :
    (insertLe le x l).Perm (x :: l) := by
  induction l with
  | nil => exact List.Perm.refl _
  | cons y ys ih =>
    simp only [insertLe]
    by_cases h : le y x = true
    · rw [if_pos h]
      exact (ih.cons y).trans (List.Perm.swap x y ys)
    · rw [if_neg h]

theorem foldl_insertLe_perm (le : α → α → Bool) (l : List α) :
    ∀ acc : List α, (l.foldl (fun acc y => insertLe le y acc) acc).Perm (acc ++ l) := by
  induction l with
  | nil => intro acc; simp
  | cons x xs ih =>
    intro acc
    exact (ih (insertLe le x acc)).trans
      (((insertLe_perm le x acc).append_right xs).trans List.perm_middle.symm)

theorem stableSortBy_perm (le : α → α → Bool) (l : List α) :
    (stableSortBy le l).Perm l := by
  simpa [stableSortBy] using foldl_insertLe_perm le l []

theorem mem_insertLe {le : α → α → Bool} {x z : α} {l : List α}
    (h : z ∈ insertLe le x l) : z = x ∨ z ∈ l := by
  simpa using (insertLe_perm le x l).mem_iff.mp h

theorem pairwise_insertLe {le : α → α → Bool}
    (htot : ∀ a b, le a b = true ∨ le b a = true)
    (htrans : ∀ a b c, le a b = true → le b c = true → le a c = true)
    (x : α) {l : List α} (h : l.Pairwise (fun a b => le a b = true)) :
    (insertLe le x l).Pairwise (fun a b => le a b = true) := by
  induction l with
  | nil => simp [insertLe]
  | cons y ys ih =>
    rcases List.pairwise_cons.mp h with ⟨hy, hys⟩
    simp only [insertLe]
    by_cases hle : le y x = true
    · rw [if_pos hle]
      refine List.pairwise_cons.mpr ⟨?_, ih hys⟩
      intro z hz
      rcases mem_insertLe hz with rfl | hz2
      · exact hle
      · exact hy z hz2
    · rw [if_neg hle]
      refine List.pairwise_cons.mpr ⟨?_, h⟩
      intro z hz
      rcases List.mem_cons.mp hz with rfl | hz2
      · exact (htot x z).resolve_right hle
      · exact htrans x y z ((htot x y).resolve_right hle) (hy z hz2)

theorem pairwise_foldl_insertLe {le : α → α → Bool}
    (htot : ∀ a b, le a b = true ∨ le b a = true)
    (htrans : ∀ a b c, le a b = true → le b c = true → le a c = true)
    (l : List α) :
    ∀ acc : List α, acc.Pairwise (fun a b => le a b = true) →
      (l.foldl (fun acc y => insertLe le y acc) acc).Pairwise (fun a b => le a b = true) := by
  induction l with
  | nil => intro acc hacc; exact hacc
  | cons x xs ih => intro acc hacc; exact ih _ (pairwise_insertLe htot htrans x hacc)

theorem pairwise_stableSortBy {le : α → α → Bool}
    (htot : ∀ a b, le a b = true ∨ le b a = true)
    (htrans : ∀ a b c, le a b = true → le b c = true → le a c = true)
    (l : List α) :
    (stableSortBy le l).Pairwise (fun a b => le a b = true) :=
  pairwise_foldl_insertLe htot htrans l [] List.Pairwise.nil

theorem head?_insertLe (le : α → α → Bool) (x : α) (l : List α) :
    (insertLe le x l).head? =
      (match l.head? with
       | none => some x
       | some y => if le y x then some y else some x) := by
  cases l with
  | nil => rfl
  | cons y ys =>
    by_cases h : le y x = true
    · simp [insertLe, h]
    · simp [insertLe, h]

theorem head?_foldl_insertLe (le : α → α → Bool) (l : List α) :
    ∀ acc : List α,
      (l.foldl (fun acc y => insertLe le y acc) acc).head? =
        l.foldl
          (fun h y =>
            match h with
            | none => some y
            | some m => if le m y then some m else some y)
          acc.head? := by
  induction l with
  | nil => intro acc; rfl
  | cons x xs ih =>
    intro acc
    rw [List.foldl_cons, List.foldl_cons, ih (insertLe le x acc), head?_insertLe]

theorem head?_stableSortBy (le : α → α → Bool) (l : List α) :
    (stableSortBy le l).head? =
      l.foldl
        (fun h y =>
          match h with
          | none => some y
          | some m => if le m y then some m else some y)
        none := by
  simpa [stableSortBy] using head?_foldl_insertLe le l []

/-! ## Lemmas about the comparators -/

theorem charListLe_total : ∀ as bs : List Char,
    charListLe as bs = true ∨ charListLe bs as = true := by
  intro as
  induction as with
  | nil => intro bs; exact Or.inl rfl
  | cons a as ih =>
    intro bs
    cases bs with
    | nil => exact Or.inr rfl
    | cons b bs =>
      by_cases hab : a = b
      · subst hab
        simpa only [charListLe, if_pos rfl] using ih bs
      · simp only [charListLe, if_neg hab, if_neg (Ne.symm hab)]
        rcases Nat.lt_trichotomy a.toNat b.toNat with h | h | h
        · exact Or.inl (decide_eq_true h)
        · exact absurd (Char.eq_of_val_eq (UInt32.ext (by simpa [Char.toNat] using h))) hab
        · exact Or.inr (decide_eq_true h)

theorem charListLe_trans : ∀ as bs cs : List Char,
    charListLe as bs = true → charListLe bs cs = true → charListLe as cs = true := by
  intro as
  induction as with
  | nil => intro bs cs _ _; rfl
  | cons a as ih =>
    intro bs cs h1 h2
    cases bs with
    | nil => exact absurd h1 (by simp [charListLe])
    | cons b bs =>
      cases cs with
      | nil => exact absurd h2 (by simp [charListLe])
      | cons c cs =>
        by_cases hab : a = b
        · subst hab
          by_cases hac : a = c
          · subst hac
            simp only [charListLe, if_pos rfl] at h1 h2 ⊢
            exact ih bs cs h1 h2
          · simp only [charListLe, if_pos rfl] at h1
            simpa only [charListLe, if_neg hac] using h2
        · by_cases hbc : b = c
          · subst hbc
            simpa only [charListLe, if_neg hab] using h1
          · simp only [charListLe, if_neg hab, decide_eq_true_eq] at h1
            simp only [charListLe, if_neg hbc, decide_eq_true_eq] at h2
            by_cases hac : a = c
            · subst hac
              exact absurd (Nat.lt_trans h1 h2) (Nat.lt_irrefl _)
            · simp only [charListLe, if_neg hac, decide_eq_true_eq]
              exact Nat.lt_trans h1 h2

theorem charListLe_antisymm : ∀ as bs : List Char,
    charListLe as bs = true → charListLe bs as = true → as = bs := by
  intro as
  induction as with
  | nil =>
    intro bs _ h2
    cases bs with
    | nil => rfl
    | cons b bs => exact absurd h2 (by simp [charListLe])
  | cons a as ih =>
    intro bs h1 h2
    cases bs with
    | nil => exact absurd h1 (by simp [charListLe])
    | cons b bs =>
      by_cases hab : a = b
      · subst hab
        simp only [charListLe, if_pos rfl] at h1 h2
        rw [ih bs h1 h2]
      · simp only [charListLe, if_neg hab, decide_eq_true_eq] at h1
        simp only [charListLe, if_neg (Ne.symm hab), decide_eq_true_eq] at h2
        exact absurd (Nat.lt_trans h1 h2) (Nat.lt_irrefl _)

theorem strLe_total (a b : String) : strLe a b = true ∨ strLe b a = true :=
  charListLe_total a.data b.data

theorem strLe_trans (a b c : String) :
    strLe a b = true → strLe b c = true → strLe a c = true :=
  charListLe_trans a.data b.data c.data

theorem strLe_antisymm (a b : String) :
    strLe a b = true → strLe b a = true → a = b := by
  intro h1 h2
  cases a with
  | mk as =>
    cases b with
    | mk bs => exact congrArg String.mk (charListLe_antisymm as bs h1 h2)

theorem timelineLe_total (a b : Expense) :
    timelineLe a b = true ∨ timelineLe b a = true := by
  by_cases h : a.date = b.date
  · rw [timelineLe, timelineLe, if_pos h, if_pos h.symm]
    exact strLe_total b.createdAt a.createdAt
  · rw [timelineLe, timelineLe, if_neg h, if_neg (Ne.symm h)]
    exact strLe_total b.date a.date

theorem timelineLe_trans (a b c : Expense) :
    timelineLe a b = true → timelineLe b c = true → timelineLe a c = true := by
  intro h1 h2
  by_cases hab : a.date = b.date
  · by_cases hbc : b.date = c.date
    · rw [timelineLe, if_pos hab] at h1
      rw [timelineLe, if_pos hbc] at h2
      rw [timelineLe, if_pos (hab.trans hbc)]
      exact strLe_trans c.createdAt b.createdAt a.createdAt h2 h1
    · rw [timelineLe, if_neg hbc] at h2
      have hac : a.date ≠ c.date := fun e => hbc (hab.symm.trans e)
      rw [timelineLe, if_neg hac, hab]
      exact h2
  · by_cases hbc : b.date = c.date
    · rw [timelineLe, if_neg hab] at h1
      have hac : a.date ≠ c.date := fun e => hab (e.trans hbc.symm)
      rw [timelineLe, if_neg hac, ← hbc]
      exact h1
    · rw [timelineLe, if_neg hab] at h1
      rw [timelineLe, if_neg hbc] at h2
      by_cases hac : a.date = c.date
      · exact absurd (strLe_antisymm b.date c.date (hac ▸ h1) h2) hbc
      · rw [timelineLe, if_neg hac]
        exact strLe_trans c.date b.date a.date h2 h1

theorem dateDescLe_total (a b : Expense) :
    dateDescLe a b = true ∨ dateDescLe b a = true :=
  strLe_total b.date a.date

theorem dateDescLe_trans (a b c : Expense) :
    dateDescLe a b = true → dateDescLe b c = true → dateDescLe a c = true :=
  fun h1 h2 => strLe_trans c.date b.date a.date h2 h1

theorem amountDescLe_total (a b : String × ℚ) :
    amountDescLe a b = true ∨ amountDescLe b a = true := by
  rcases le_total b.2 a.2 with h | h
  · exact Or.inl (decide_eq_true h)
  · exact Or.inr (decide_eq_true h)

theorem amountDescLe_trans (a b c : String × ℚ) :
    amountDescLe a b = true → amountDescLe b c = true → amountDescLe a c = true := by
  intro h1 h2
  exact decide_eq_true (le_trans (of_decide_eq_true h2) (of_decide_eq_true h1))

/-! ## Lemmas about the first-maximum scan -/

theorem foldl_fmStep_ne_none (entries : List (String × ℚ)) :
    ∀ m : String × ℚ, entries.foldl fmStep (some m) ≠ none := by
  induction entries with
  | nil => intro m h; exact Option.noConfusion h
  | cons p ps ih =>
    intro m
    show ps.foldl fmStep (fmStep (some m) p) ≠ none
    by_cases h : m.2 < p.2
    · rw [show fmStep (some m) p = some p by simp [fmStep, h]]
      exact ih p
    · rw [show fmStep (some m) p = some m by simp [fmStep, h]]
      exact ih m

theorem foldl_fmStep_spec (entries : List (String × ℚ)) :
    ∀ m r : String × ℚ, entries.foldl fmStep (some m) = some r →
      (r = m ∨ r ∈ entries) ∧ m.2 ≤ r.2 ∧ ∀ p ∈ entries, p.2 ≤ r.2 := by
  induction entries with
  | nil =>
    intro m r h
    injection h with h2
    subst h2
    exact ⟨Or.inl rfl, le_rfl, by simp⟩
  | cons p ps ih =>
    intro m r h
    rw [List.foldl_cons] at h
    by_cases hmp : m.2 < p.2
    · have h2 : ps.foldl fmStep (some p) = some r := by
        rw [show fmStep (some m) p = some p by simp [fmStep, hmp]] at h
        exact h
      rcases ih p r h2 with ⟨hmem, hle, hall⟩
      refine ⟨?_, le_trans (le_of_lt hmp) hle, ?_⟩
      · rcases hmem with rfl | hm
        · exact Or.inr (List.mem_cons_self _ _)
        · exact Or.inr (List.mem_cons_of_mem _ hm)
      · intro z hz
        rcases List.mem_cons.mp hz with rfl | hz2
        · exact hle
        · exact hall z hz2
    · have h2 : ps.foldl fmStep (some m) = some r := by
        rw [show fmStep (some m) p = some m by simp [fmStep, hmp]] at h
        exact h
      rcases ih m r h2 with ⟨hmem, hle, hall⟩
      refine ⟨?_, hle, ?_⟩
      · rcases hmem with rfl | hm
        · exact Or.inl rfl
        · exact Or.inr (List.mem_cons_of_mem _ hm)
      · intro z hz
        rcases List.mem_cons.mp hz with rfl | hz2
        · exact le_trans (le_of_not_lt hmp) hle
        · exact hall z hz2

theorem firstMaxEntry_none_iff (entries : List (String × ℚ)) :
    firstMaxEntry entries = none ↔ entries = [] := by
  cases entries with
  | nil => simp [firstMaxEntry]
  | cons p ps =>
    constructor
    · intro h
      have h2 : ps.foldl fmStep (some p) = none := h
      exact absurd h2 (foldl_fmStep_ne_none ps p)
    · intro h
      exact absurd h (List.cons_ne_nil p ps)

theorem firstMaxEntry_spec (entries : List (String × ℚ)) (r : String × ℚ)
    (h : firstMaxEntry entries = some r) :
    r ∈ entries ∧ ∀ p ∈ entries, p.2 ≤ r.2 := by
  cases entries with
  | nil => exact absurd h (by simp [firstMaxEntry])
  | cons p ps =>
    have h2 : ps.foldl fmStep (some p) = some r := h
    rcases foldl_fmStep_spec ps p r h2 with ⟨hmem, hle, hall⟩
    refine ⟨?_, ?_⟩
    · rcases hmem with rfl | hm
      · exact List.mem_cons_self _ _
      · exact List.mem_cons_of_mem _ hm
    · intro z hz
      rcases List.mem_cons.mp hz with rfl | hz2
      · exact hle
      · exact hall z hz2

theorem totalsTopCategory_eq_firstMax (l : List Expense) :
    totalsTopCategory l = firstMaxEntry (jsEntries (byCategoryAgg l)) := by
  rw [totalsTopCategory, head?_stableSortBy, firstMaxEntry]
  apply List.foldl_ext
  intro h p _
  cases h with
  | none => rfl
  | some m =>
    by_cases hmp : m.2 < p.2
    · have h1 : amountDescLe m p = false := by
        simp [amountDescLe, not_le.mpr hmp]
      simp [fmStep, h1, hmp]
    · have h1 : amountDescLe m p = true := decide_eq_true (le_of_not_lt hmp)
      simp [fmStep, h1, hmp]

/-! ## Lemmas about the aggregation -/

theorem jsEntries_perm (rec : List (String × ℚ)) : (jsEntries rec).Perm rec :=
  ((stableSortBy_perm keyNumLe _).append_right _).trans (List.filter_append_perm _ rec)

theorem recordSet_ne_nil (rec : List (String × ℚ)) (k : String) (v : ℚ) :
    recordSet rec k v ≠ [] := by
  cases rec with
  | nil => simp [recordSet]
  | cons p rest =>
    rcases p with ⟨k0, v0⟩
    by_cases h : k0 = k <;> simp [recordSet, h]

theorem foldl_agg_ne_nil (l : List Expense) :
    ∀ acc : List (String × ℚ), acc ≠ [] →
      l.foldl
          (fun acc e => recordSet acc e.category ((recordGet acc e.category).getD 0 + e.amount))
          acc ≠ [] := by
  induction l with
  | nil => intro acc h; exact h
  | cons e es ih => intro acc _; exact ih _ (recordSet_ne_nil _ _ _)

theorem byCategoryAgg_eq_nil_iff (l : List Expense) :
    byCategoryAgg l = [] ↔ l = [] := by
  cases l with
  | nil => simp [byCategoryAgg]
  | cons e es =>
    constructor
    · intro h
      rw [byCategoryAgg, List.foldl_cons] at h
      exact absurd h (foldl_agg_ne_nil es _ (recordSet_ne_nil _ _ _))
    · intro h
      exact absurd h (List.cons_ne_nil e es)

theorem jsEntries_eq_nil_iff (rec : List (String × ℚ)) : jsEntries rec = [] ↔ rec = [] := by
  constructor
  · intro h
    have h2 := (jsEntries_perm rec).symm
    rw [h] at h2
    exact h2.eq_nil
  · intro h
    subst h
    rfl

/-! ## Lemmas about the persistence bridge -/

theorem decodeExpense_encodeExpense (e : Expense) : decodeExpense (encodeExpense e) = some e := by
  cases e with
  | mk i d c a dt note ca => cases note <;> rfl

theorem saveExpenses_no_null (l : List Expense) :
    (l.map encodeExpense).any jsonIsNull = false := by
  induction l with
  | nil => rfl
  | cons e es ih => simp [jsonIsNull, encodeExpense, ih]

theorem loadSlot_arr_no_null {items : List Json} (h : items.any jsonIsNull = false) :
    loadSlot (Slot.value (Json.arr items)) =
      stableSortBy dateDescLe (items.filterMap decodeExpense) := by
  simp [loadSlot, h]

/-! ## Transfer lemmas for the claim statements -/

theorem timelineLe_iff (a b : Expense) :
    timelineLe a b = true ↔ timelineOrder a b := by
  unfold timelineLe timelineOrder
  by_cases h : a.date = b.date
  · rw [if_pos h]
    constructor
    · intro hc
      exact Or.inl ⟨h.symm, hc⟩
    · rintro (⟨-, hc⟩ | ⟨hne, -⟩)
      · exact hc
      · exact absurd h.symm hne
  · rw [if_neg h]
    constructor
    · intro hc
      exact Or.inr ⟨fun e => h e.symm, hc⟩
    · rintro (⟨he, -⟩ | ⟨-, hc⟩)
      · exact absurd he.symm h
      · exact hc

theorem matchesSearch_iff (searchTerm : String) (e : Expense) :
    matchesSearch searchTerm e = true ↔
      ((jsToLowerStr (jsTrim searchTerm)).data <:+: (jsToLowerStr e.description).data ∨
        ∃ n, e.note = some n ∧
          (jsToLowerStr (jsTrim searchTerm)).data <:+: (jsToLowerStr n).data) := by
  cases hnote : e.note with
  | none => simp [matchesSearch, jsIncludes, hnote]
  | some n => simp [matchesSearch, jsIncludes, hnote]

/-! ## Calendar lemmas -/

theorem daysInGregorianMonth_pos (y m : ℤ) : 0 < daysInGregorianMonth y m := by
  unfold daysInGregorianMonth
  split
  · norm_num
  · split
    · norm_num
    · split <;> norm_num

theorem ratTrunc_natCast (n : ℕ) : ratTrunc ((n : ℕ) : ℚ) = (n : ℤ) := by
  rw [ratTrunc, if_neg (not_lt.mpr (by exact_mod_cast Nat.zero_le n))]
  exact Int.floor_natCast n

theorem isLeapYear_add_1900 (y : ℤ) (h1 : 1 ≤ y) (h99 : y ≤ 99) :
    isLeapYear (y + 1900) = isLeapYear y := by
  unfold isLeapYear
  rw [decide_eq_decide]
  omega

theorem daysInGregorianMonth_add_1900 (y m : ℤ) (h1 : 1 ≤ y) (h99 : y ≤ 99) :
    daysInGregorianMonth (y + 1900) m = daysInGregorianMonth y m := by
  unfold daysInGregorianMonth
  rw [isLeapYear_add_1900 y h1 h99]

theorem jsDateZeroGetDate_eq (y m : ℕ) (hy : 1 ≤ y) (hm1 : 1 ≤ m) (hm12 : m ≤ 12) :
    jsDateZeroGetDate ((y : ℕ) : ℚ) ((m : ℕ) : ℚ) =
      daysInGregorianMonth ((y : ℕ) : ℤ) ((m : ℕ) : ℤ) := by
  have hy1 : (1 : ℤ) ≤ ((y : ℕ) : ℤ) := by exact_mod_cast hy
  rcases Nat.lt_or_ge m 12 with hm11 | hm12plus
  · have hmz : ((m : ℕ) : ℤ).fdiv 12 = 0 := by
      rw [Int.fdiv_eq_ediv _ (by norm_num)]
      show ((m : ℕ) : ℤ) / 12 = 0
      omega
    have hme : ((m : ℕ) : ℤ).emod 12 = ((m : ℕ) : ℤ) := by
      show ((m : ℕ) : ℤ) % 12 = ((m : ℕ) : ℤ)
      omega
    have hmne : ¬(((m : ℕ) : ℤ) = 0) := by
      have : (1 : ℤ) ≤ ((m : ℕ) : ℤ) := by exact_mod_cast hm1
      omega
    simp only [jsDateZeroGetDate, ratTrunc_natCast, hmz, hme, add_zero, if_neg hmne]
    by_cases h99 : 0 ≤ ((y : ℕ) : ℤ) ∧ ((y : ℕ) : ℤ) ≤ 99
    · rw [if_pos h99]
      exact daysInGregorianMonth_add_1900 _ _ hy1 h99.2
    · rw [if_neg h99]
  · have hm12eq : m = 12 := le_antisymm hm12 hm12plus
    subst hm12eq
    have hme : ((12 : ℕ) : ℤ).emod 12 = 0 := by decide
    simp only [jsDateZeroGetDate, ratTrunc_natCast, hme, if_pos rfl]
    have : daysInGregorianMonth ((12 : ℕ) : ℤ) ((12 : ℕ) : ℤ) = 31 := by decide
    rw [show ((12 : ℕ) : ℤ) = 12 by decide]
    simp [daysInGregorianMonth]

/-! ## Rounding lemmas -/

theorem toFixed2_nearest (x : ℚ) (hx : 0 ≤ x) (n : ℤ) :
    |jsToFixed2 x - x| ≤ |(n : ℚ) / 100 - x| := by
  rw [jsToFixed2, if_neg (not_lt.mpr hx)]
  set k := ⌊100 * x + 1/2⌋ with hk
  have h1 : (k : ℚ) ≤ 100 * x + 1/2 := Int.floor_le _
  have h2 : 100 * x + 1/2 < (k : ℚ) + 1 := Int.lt_floor_add_one _
  have habs : |(k : ℚ) - 100 * x| ≤ 1/2 := by
    rw [abs_le]
    constructor <;> linarith
  have e1 : (k : ℚ) / 100 - x = ((k : ℚ) - 100 * x) / 100 := by ring
  have e2 : (n : ℚ) / 100 - x = ((n : ℚ) - 100 * x) / 100 := by ring
  rw [e1, e2, abs_div, abs_div, abs_of_pos (by norm_num : (0 : ℚ) < 100)]
  refine (div_le_div_iff_of_pos_right (by norm_num : (0 : ℚ) < 100)).mpr ?_
  by_cases hnk : n = k
  · rw [hnk]
  · have h3 : (1 : ℚ) ≤ |(n : ℚ) - (k : ℚ)| := by
      have h4 : (1 : ℤ) ≤ |n - k| := Int.one_le_abs (sub_ne_zero.mpr hnk)
      exact_mod_cast h4
    have h5 : |(n : ℚ) - (k : ℚ)| ≤ |(n : ℚ) - 100 * x| + |100 * x - (k : ℚ)| :=
      abs_sub_le _ _ _
    have h6 : |100 * x - (k : ℚ)| = |(k : ℚ) - 100 * x| := abs_sub_comm _ _
    linarith

theorem toFixed2_tie (x : ℚ) (hx : 0 ≤ x) (k : ℤ) (h : 100 * x + 1/2 = (k : ℚ)) :
    jsToFixed2 x = (k : ℚ) / 100 := by
  rw [jsToFixed2, if_neg (not_lt.mpr hx), h, Int.floor_intCast]

/-! ## Claim theorems -/

/-- C6: `save` followed by `load` reproduces the same record set.  For every
list of records (well-formed by construction of `Expense`), loading the saved
document yields a permutation of the saved records: no record is lost and no
field is altered; only the order is normalized by the load-time date sort. -/
theorem save_load_roundtrip (l : List Expense) :
    (loadSlot (Slot.value (saveExpenses l))).Perm l := by
  have hdec : (l.map encodeExpense).filterMap decodeExpense = l := by
    rw [List.filterMap_map]
    calc l.filterMap (decodeExpense ∘ encodeExpense)
        = l.filterMap some :=
          List.filterMap_congr (fun a _ => decodeExpense_encodeExpense a)
      _ = l := List.filterMap_some l
  have h2 := loadSlot_arr_no_null (saveExpenses_no_null l)
  show (loadSlot (Slot.value (Json.arr (l.map encodeExpense)))).Perm l
  rw [h2, hdec]
  exact stableSortBy_perm dateDescLe l

/-- C1 (amended): `load` never raises.  An absent slot, an unparseable slot
and a non-array document yield the empty store.  For an array containing no
`null` entry, exactly the entries whose `id`, `description`, `category` and
`date` are strings and whose `amount` is a number are kept (as `decodeExpense`
states), sorted by date descending.  An array containing a `null` entry makes
the shape-checking filter throw (property access on `null`); the catch
swallows the error and the store stays empty, dropping even its well-formed
entries. -/
theorem load_recovery_spec :
    loadSlot Slot.absent = [] ∧ loadSlot Slot.malformed = [] ∧
    (∀ j : Json, jsonIsArr j = false → loadSlot (Slot.value j) = []) ∧
    (∀ items : List Json, items.any jsonIsNull = true →
      loadSlot (Slot.value (Json.arr items)) = []) ∧
    (∀ items : List Json, items.any jsonIsNull = false →
      (loadSlot (Slot.value (Json.arr items))).Perm (items.filterMap decodeExpense) ∧
      (loadSlot (Slot.value (Json.arr items))).Pairwise (fun a b => dateDescLe a b = true)) := by
  refine ⟨rfl, rfl, ?_, ?_, ?_⟩
  · intro j h
    cases j with
    | null => rfl
    | bool b => rfl
    | num q => rfl
    | str s => rfl
    | arr items => exact absurd h (by simp [jsonIsArr])
    | obj fields => rfl
  · intro items h
    simp [loadSlot, h]
  · intro items h
    rw [loadSlot_arr_no_null h]
    exact ⟨stableSortBy_perm _ _, pairwise_stableSortBy dateDescLe_total dateDescLe_trans _⟩

/-- C1 witness: a concrete mixed array (including the documented malformed
entry `{id: 1, amount: "5"}`) keeps exactly its two well-shaped entries. -/
theorem load_recovery_spec_witness :
    (loadSlot (Slot.value (Json.arr mixedItems))).Perm [expA, expB] := by
  have h := (load_recovery_spec.2.2.2.2 mixedItems (by decide)).1
  have heq : mixedItems.filterMap decodeExpense = [expA, expB] := by decide
  rw [heq] at h
  exact h

/-- C1 counterexample: on an array holding a well-formed entry and a `null`,
load returns the empty store, not the list of well-formed entries — refuting
the claim that a mixed array always yields exactly its well-formed entries. -/
theorem load_null_counterexample :
    decodeExpense goodObjA = some expA ∧
    loadSlot (Slot.value (Json.arr [goodObjA, Json.null])) = [] ∧
    loadSlot (Slot.value (Json.arr [goodObjA, Json.null])) ≠ [expA] :=
  ⟨by decide, by decide, by decide⟩

/-- C9: `remove(id)` keeps exactly the records whose id differs (order
preserved), is a no-op when no record has the id, and is idempotent. -/
theorem remove_delete_spec (id : String) (store : List Expense) :
    (∀ e : Expense, e ∈ handleDelete id store ↔ e ∈ store ∧ e.id ≠ id) ∧
    ((∀ e ∈ store, e.id ≠ id) → handleDelete id store = store) ∧
    handleDelete id (handleDelete id store) = handleDelete id store := by
  refine ⟨?_, ?_, ?_⟩
  · intro e
    simp [handleDelete, List.mem_filter]
  · intro h
    exact List.filter_eq_self.mpr (fun a ha => decide_eq_true (h a ha))
  · simp [handleDelete, List.filter_filter]

/-- C9 witness: deleting an absent id is a no-op, and a surviving record stays
present after deletion of another id. -/
theorem remove_delete_spec_witness :
    handleDelete "z" [demoC9] = [demoC9] ∧ demoC9 ∈ handleDelete "q" [demoC9] := by
  refine ⟨(remove_delete_spec "z" [demoC9]).2.1 (by decide), ?_⟩
  exact ((remove_delete_spec "q" [demoC9]).1 demoC9).mpr ⟨List.mem_singleton.mpr rfl, by decide⟩

/-- C10: when the computed day count for the month string is `NaN` (modelled
`none`) or `0`, `dailyAverage` is the total unchanged — the guard prevents any
division by zero or `NaN`. -/
theorem dailyAverage_guard (l : List Expense) (month : String)
    (h : daysInMonthComputed month = none ∨ daysInMonthComputed month = some 0) :
    dailyAverageCalc l month = totalsTotal l := by
  rcases h with h | h <;> simp [dailyAverageCalc, h]

/-- C10 witness: a malformed month value leaves the total undivided. -/
theorem dailyAverage_guard_witness :
    dailyAverageCalc demoMarch "abcd-xy" = totalsTotal demoMarch :=
  dailyAverage_guard demoMarch "abcd-xy" (Or.inl (by decide))

/-- C8: with an empty (or whitespace-only) trimmed term every record is kept;
with a non-empty trimmed term exactly the records whose lowercased description
or note contains the lowercased trimmed term are kept, and a record with an
absent note can only match on its description. -/
theorem search_filter_spec (searchTerm : String) (l : List Expense) :
    (jsTrim searchTerm = "" → searchStage l searchTerm = l) ∧
    (jsTrim searchTerm ≠ "" → ∀ e : Expense,
      e ∈ searchStage l searchTerm ↔
        e ∈ l ∧
          ((jsToLowerStr (jsTrim searchTerm)).data <:+: (jsToLowerStr e.description).data ∨
            ∃ n, e.note = some n ∧
              (jsToLowerStr (jsTrim searchTerm)).data <:+: (jsToLowerStr n).data)) := by
  constructor
  · intro h
    simp [searchStage, h]
  · intro h e
    rw [searchStage, if_neg h, List.mem_filter, matchesSearch_iff]

/-- C8 witness: the term `" CAFE "` matches the description `"Cafe Latte"` of
a record with no note, case-insensitively. -/
theorem search_filter_spec_witness :
    demoSearch ∈ searchStage [demoSearch] " CAFE " :=
  ((search_filter_spec " CAFE " [demoSearch]).2 (by decide) demoSearch).mpr
    ⟨List.mem_singleton.mpr rfl, Or.inl (by decide)⟩

/-- C3: the filtered timeline is a permutation of the filter pipeline's output
and is sorted by date descending with ties on equal dates broken by
`createdAt` descending (the pairwise order below); in particular, of two
records with identical date, the one with the later `createdAt` appears
first.  Records equal in both keys keep their input order, by the stability of
the modelled sort. -/
theorem filteredExpenses_sorted (l : List Expense) (month categoryFilter searchTerm : String) :
    (filteredExpenses l month categoryFilter searchTerm).Pairwise timelineOrder ∧
    (filteredExpenses l month categoryFilter searchTerm).Perm
      (searchStage (categoryStage (monthStage l month) categoryFilter) searchTerm) := by
  constructor
  · exact (pairwise_stableSortBy timelineLe_total timelineLe_trans _).imp
      (fun h => (timelineLe_iff _ _).mp h)
  · exact stableSortBy_perm _ _

/-- C7 (amended): `topCategory` is `none` exactly when the filtered set is
empty; otherwise it is an entry of the aggregation attaining the maximal
aggregated amount, and ties are broken by the enumeration order of the
aggregation object's entries (array-index category names in ascending numeric
order first, then the remaining categories in insertion order), taking the
first maximal entry of that enumeration. -/
theorem topCategory_spec (l : List Expense) :
    (totalsTopCategory l = none ↔ l = []) ∧
    (∀ c : String, ∀ a : ℚ, totalsTopCategory l = some (c, a) →
      (c, a) ∈ byCategoryAgg l ∧ ∀ p ∈ byCategoryAgg l, p.2 ≤ a) ∧
    totalsTopCategory l = firstMaxEntry (jsEntries (byCategoryAgg l)) := by
  have heq := totalsTopCategory_eq_firstMax l
  refine ⟨?_, ?_, heq⟩
  · rw [heq, firstMaxEntry_none_iff, jsEntries_eq_nil_iff, byCategoryAgg_eq_nil_iff]
  · intro c a h
    rw [heq] at h
    rcases firstMaxEntry_spec _ _ h with ⟨hmem, hall⟩
    have hperm := jsEntries_perm (byCategoryAgg l)
    refine ⟨hperm.mem_iff.mp hmem, ?_⟩
    intro p hp
    exact hall p (hperm.mem_iff.mpr hp)

/-- C7 witness: on the two-record March example the top category is `Tech`
with its aggregated amount, an entry of the aggregation. -/
theorem topCategory_spec_witness :
    totalsTopCategory demoMarch = some ("Tech", 20) ∧
    ("Tech", (20 : ℚ)) ∈ byCategoryAgg demoMarch := by
  refine ⟨by decide, ?_⟩
  exact ((topCategory_spec demoMarch).2.1 "Tech" 20 (by decide)).1

/-- C7 counterexample: with equal sums for the array-index-named categories
`"2"` (inserted first) and `"1"`, the code's top category is `"1"` — the
enumeration order of the object, not the insertion order of the aggregation
(which the spec-worded `specTopCategoryByInsertion` follows). -/
theorem topCategory_tie_counterexample :
    totalsTopCategory tieRecords = some ("1", 5) ∧
    specTopCategoryByInsertion tieRecords = some ("2", 5) ∧
    totalsTopCategory tieRecords ≠ specTopCategoryByInsertion tieRecords :=
  ⟨by decide, by decide, by decide⟩

/-- C4: for a selected `YYYY-MM` month (year ≥ 1, month 01–12),
`dailyAverage` is the total divided by the actual number of calendar days of
that Gregorian month (month lengths and leap years included); with no month
selected it is the total divided by the fixed fallback 30. -/
theorem dailyAverage_days_in_month (l : List Expense) (s : String) (y m : ℕ)
    (hy : 1 ≤ y) (hm1 : 1 ≤ m) (hm12 : m ≤ 12) (hs : s ≠ "")
    (h4 : jsNumberExact (strTake s 4) = some ((y : ℕ) : ℚ))
    (h5 : jsNumberExact (strDrop s 5) = some ((m : ℕ) : ℚ)) :
    dailyAverageCalc l s =
      totalsTotal l / ((daysInGregorianMonth ((y : ℕ) : ℤ) ((m : ℕ) : ℤ) : ℤ) : ℚ) ∧
    dailyAverageCalc l "" = totalsTotal l / 30 := by
  have hdays : daysInMonthComputed s =
      some (daysInGregorianMonth ((y : ℕ) : ℤ) ((m : ℕ) : ℤ)) := by
    unfold daysInMonthComputed
    rw [if_neg hs, h4, h5]
    show some (jsDateZeroGetDate ((y : ℕ) : ℚ) ((m : ℕ) : ℚ)) = _
    rw [jsDateZeroGetDate_eq y m hy hm1 hm12]
  constructor
  · unfold dailyAverageCalc
    rw [hdays]
    show (if daysInGregorianMonth ((y : ℕ) : ℤ) ((m : ℕ) : ℤ) = 0 then totalsTotal l
      else totalsTotal l / _) = _
    rw [if_neg (ne_of_gt (daysInGregorianMonth_pos _ _))]
  · show (if (30 : ℤ) = 0 then totalsTotal l else totalsTotal l / ((30 : ℤ) : ℚ)) =
      totalsTotal l / 30
    norm_num

/-- C4 witness: the two-record March 2024 example has total 30 and daily
average 30/31. -/
theorem dailyAverage_days_in_month_witness :
    totalsTotal (filteredExpenses demoMarch "2024-03" "all" "") = 30 ∧
    dailyAverageCalc (filteredExpenses demoMarch "2024-03" "all" "") "2024-03" = 30 / 31 := by
  have h := dailyAverage_days_in_month (filteredExpenses demoMarch "2024-03" "all" "")
    "2024-03" 2024 3 (by norm_num) (by norm_num) (by norm_num) (by decide) (by decide) (by decide)
  refine ⟨by decide, ?_⟩
  rw [h.1]
  decide

/-- C2: validation applies its rules in the fixed order description, amount,
date, stops at the first failure with a single reason, and any failure leaves
the record store unchanged.  Each error is returned exactly when its rule is
the first to fail: `EmptyDescription` iff the trimmed description is empty;
`InvalidAmount` iff the description passes and the amount does not parse or
parses to a value ≤ 0; `InvalidDate` iff description and amount pass and the
date is empty or unparseable. -/
theorem handleSubmit_validation (draft : DraftExpense) (freshId now : String)
    (store : List Expense) :
    ((handleSubmit draft freshId now store).2 = some SubmitError.EmptyDescription ↔
      jsTrim draft.description = "") ∧
    ((handleSubmit draft freshId now store).2 = some SubmitError.InvalidAmount ↔
      jsTrim draft.description ≠ "" ∧
        (jsParseFloat draft.amount = none ∨
          ∃ q, jsParseFloat draft.amount = some q ∧ q ≤ 0)) ∧
    ((handleSubmit draft freshId now store).2 = some SubmitError.InvalidDate ↔
      jsTrim draft.description ≠ "" ∧
        (∃ q, jsParseFloat draft.amount = some q ∧ 0 < q) ∧
        (draft.date = "" ∨ jsDateParses draft.date = false)) ∧
    ((handleSubmit draft freshId now store).2 ≠ none →
      (handleSubmit draft freshId now store).1 = store) := by
  by_cases hd : jsTrim draft.description = ""
  · have he : handleSubmit draft freshId now store = (store, some SubmitError.EmptyDescription) := by
      simp [handleSubmit, hd]
    rw [he]
    refine ⟨by simp [hd], by simp [hd], by simp [hd], fun _ => rfl⟩
  · cases hq : jsParseFloat draft.amount with
    | none =>
      have he : handleSubmit draft freshId now store = (store, some SubmitError.InvalidAmount) := by
        simp [handleSubmit, hd, hq]
      rw [he]
      refine ⟨by simp [hd], ?_, ?_, fun _ => rfl⟩
      · constructor
        · intro _
          exact ⟨hd, Or.inl rfl⟩
        · intro _
          rfl
      · constructor
        · intro hc
          exact absurd hc (by simp)
        · rintro ⟨-, ⟨q2, hq2, -⟩, -⟩
          exact Option.noConfusion hq2
    | some q =>
      by_cases hq0 : q ≤ 0
      · have he : handleSubmit draft freshId now store = (store, some SubmitError.InvalidAmount) := by
          simp [handleSubmit, hd, hq, hq0]
        rw [he]
        refine ⟨by simp [hd], ?_, ?_, fun _ => rfl⟩
        · constructor
          · intro _
            exact ⟨hd, Or.inr ⟨q, rfl, hq0⟩⟩
          · intro _
            rfl
        · constructor
          · intro hc
            exact absurd hc (by simp)
          · rintro ⟨-, ⟨q2, hq2, hq2pos⟩, -⟩
            injection hq2 with h3
            subst h3
            exact absurd hq2pos (not_lt.mpr hq0)
      · by_cases hdate : draft.date = "" ∨ jsDateParses draft.date = false
        · have he : handleSubmit draft freshId now store =
              (store, some SubmitError.InvalidDate) := by
            simp [handleSubmit, hd, hq, hq0, hdate]
          rw [he]
          refine ⟨by simp [hd], ?_, ?_, fun _ => rfl⟩
          · constructor
            · intro hc
              exact absurd hc (by simp)
            · rintro ⟨-, hc | ⟨q2, hq2, hq2le⟩⟩
              · exact Option.noConfusion hc
              · injection hq2 with h3
                subst h3
                exact absurd hq2le hq0
          · constructor
            · intro _
              exact ⟨hd, ⟨q, rfl, not_le.mp hq0⟩, hdate⟩
            · intro _
              rfl
        · have he2 : (handleSubmit draft freshId now store).2 = none := by
            simp [handleSubmit, hd, hq, hq0, hdate]
          refine ⟨?_, ?_, ?_, fun hc => absurd he2 hc⟩
          · rw [he2]
            simp [hd]
          · rw [he2]
            constructor
            · intro hc
              exact Option.noConfusion hc
            · rintro ⟨-, hc | ⟨q2, hq2, hq2le⟩⟩
              · exact Option.noConfusion hc
              · injection hq2 with h3
                subst h3
                exact absurd hq2le hq0
          · rw [he2]
            constructor
            · intro hc
              exact Option.noConfusion hc
            · rintro ⟨-, -, hc⟩
              exact absurd hc hdate

/-- C2 witness: the amounts `"0"`, `"-5"` and `"abc"` are rejected with
`InvalidAmount` and the store is left unchanged. -/
theorem handleSubmit_validation_witness :
    (handleSubmit (demoDraft "0") "i" "t" demoStore).2 = some SubmitError.InvalidAmount ∧
    (handleSubmit (demoDraft "-5") "i" "t" demoStore).2 = some SubmitError.InvalidAmount ∧
    (handleSubmit (demoDraft "abc") "i" "t" demoStore).2 = some SubmitError.InvalidAmount ∧
    (handleSubmit (demoDraft "0") "i" "t" demoStore).1 = demoStore := by
  have h0 := handleSubmit_validation (demoDraft "0") "i" "t" demoStore
  have h5 := handleSubmit_validation (demoDraft "-5") "i" "t" demoStore
  have ha := handleSubmit_validation (demoDraft "abc") "i" "t" demoStore
  refine ⟨?_, ?_, ?_, ?_⟩
  · exact h0.2.1.mpr ⟨by decide, Or.inr ⟨0, by decide, by decide⟩⟩
  · exact h5.2.1.mpr ⟨by decide, Or.inr ⟨-5, by decide, by decide⟩⟩
  · exact ha.2.1.mpr ⟨by decide, Or.inl (by decide)⟩
  · exact h0.2.2.2 (by decide)

/-- C5 (amended): for every accepted draft the stored amount is
`Number(amountValue.toFixed(2))`: the multiple of `1/100` nearest to the
parsed binary64 value `amountValue` (exact ties taking the larger value),
re-read as a double.  Round-half-up is applied to the binary double actually
parsed, not to the decimal text, which differs for texts such as `"1.005"`;
for `"12.345"` the two agree and the record stores the double of `12.35`. -/
theorem amount_rounded_toFixed (draft : DraftExpense) (freshId now : String)
    (store : List Expense) (q : ℚ)
    (hd : jsTrim draft.description ≠ "") (hq : jsParseFloat draft.amount = some q)
    (hpos : 0 < q)
    (hdate : ¬(draft.date = "" ∨ jsDateParses draft.date = false)) :
    handleSubmit draft freshId now store =
      ({ id := freshId, description := jsTrim draft.description,
         category := if draft.category = "" then "Other" else draft.category,
         amount := nearestDouble (jsToFixed2 q), date := draft.date,
         note := if jsTrim draft.note = "" then none else some (jsTrim draft.note),
         createdAt := now } :: store, none) ∧
    (∀ n : ℤ, |jsToFixed2 q - q| ≤ |(n : ℚ) / 100 - q|) ∧
    (∀ k : ℤ, 100 * q + 1/2 = (k : ℚ) → jsToFixed2 q = (k : ℚ) / 100) := by
  refine ⟨?_, fun n => toFixed2_nearest q hpos.le n, fun k hk => toFixed2_tie q hpos.le k hk⟩
  simp [handleSubmit, hd, hq, not_le.mpr hpos, hdate]

/-- C5 witness: submitting the amount text `"12.345"` stores the binary64
value of `12.35`, and the toFixed output is nearest among 2-decimal values. -/
theorem amount_rounded_toFixed_witness :
    handleSubmit (demoDraft "12.345") "i" "t" [] = ([c12Stored], none) ∧
    |jsToFixed2 q12val - q12val| ≤ |((1235 : ℤ) : ℚ) / 100 - q12val| := by
  have h := amount_rounded_toFixed (demoDraft "12.345") "i" "t" [] q12val (by decide)
    (by decide) (by decide) (by decide)
  exact ⟨h.1.trans (by decide), h.2.1 1235⟩

/-- C5 counterexample: `"1.005"` parses to the double 1.00499999999999989…;
the code stores 1.00, while round-half-up at 2 decimals of the decimal amount
1.005 is 1.01 — refuting "the stored amount is the parsed amount rounded …
using round-half-up" read on the decimal amount. -/
theorem amount_rounding_counterexample :
    jsParseFloatExact (demoDraft "1.005").amount = some (201 / 200) ∧
    (handleSubmit (demoDraft "1.005") "i" "t" []).1 = [c5Stored] ∧
    c5Stored.amount = 1 ∧ specRoundHalfUp2 (201 / 200) = 101 / 100 ∧
    c5Stored.amount ≠ specRoundHalfUp2 (201 / 200) :=
  ⟨by decide, by decide, by decide, by decide, by decide⟩
